import Mathlib

/- Shallow embedding of Main.py, a Streamlit YouTube downloader, together with
proofs of the specified properties of its pure logic: filename sanitization,
duration / file-size formatting, video-quality derivation from format
descriptors, yt-dlp format-selector construction, URL validation, and the
download orchestration (modelled over an explicit environment describing the
external library's outcome and the transient directory contents). -/

/-! ### Character and string primitives

Python string operations are embedded over `List Char` (`String.data`).
`leadsWith pat s` models `s.startswith(pat)`, and `containsSub pat s` models
the Python substring test `pat in s`. -/

def leadsWith : List Char → List Char → Bool
  | [], _ => true
  | _ :: _, [] => false
  | p :: ps, c :: cs => p == c && leadsWith ps cs

def containsSub (pat : List Char) : List Char → Bool
  | [] => leadsWith pat []
  | c :: cs => leadsWith pat (c :: cs) || containsSub pat cs

/-! ### Decimal rendering of naturals

Models Python's decimal rendering of a non-negative int inside an f-string
(`f"{height}p"`, `f"{n:02d}"`). Defined with explicit fuel so that it is
structurally recursive and evaluates in the kernel. -/

def natCharsAux : Nat → Nat → List Char
  | 0, _ => []
  | fuel + 1, n =>
    if n < 10 then [Nat.digitChar n]
    else natCharsAux fuel (n / 10) ++ [Nat.digitChar (n % 10)]

def natChars (n : Nat) : List Char :=
  natCharsAux (n + 1) n

def digitVal (c : Char) : Nat := c.toNat - '0'.toNat

/-- Models Python `int(s)` on a string of decimal digits. -/
def parseDigits (cs : List Char) : Nat :=
  cs.foldl (fun a c => 10 * a + digitVal c) 0

/-! ### Filename sanitizer (Main.py lines 17-24)

`sanitize_filename` removes the characters `< > : " / \ | ? *`, collapses
whitespace runs to a single space (`re.sub(r'\s+', ' ', ...)`), strips leading
and trailing whitespace, and truncates to 100 characters. `isSpace` is
exactly the set of code points CPython's Unicode `\s` class and `str.strip()`
treat as whitespace (the two sets coincide): tab through carriage return
(09-0d), the file/group/record/unit separators (1c-1f), space, next line
(85), no-break space (a0), ogham space mark (1680), the en/em-family spaces
(2000-200a), line and paragraph separators (2028, 2029), narrow no-break
space (202f), medium mathematical space (205f), and ideographic space
(3000). -/

def invalidChar (c : Char) : Bool :=
  c == '<' || c == '>' || c == ':' || c == '"' || c == '/' ||
  c == '\\' || c == '|' || c == '?' || c == '*'

def isSpace (c : Char) : Bool :=
  let n := c.toNat
  n == 0x09 || n == 0x0a || n == 0x0b || n == 0x0c || n == 0x0d ||
  n == 0x1c || n == 0x1d || n == 0x1e || n == 0x1f || n == 0x20 ||
  n == 0x85 || n == 0xa0 || n == 0x1680 ||
  n == 0x2000 || n == 0x2001 || n == 0x2002 || n == 0x2003 || n == 0x2004 ||
  n == 0x2005 || n == 0x2006 || n == 0x2007 || n == 0x2008 || n == 0x2009 ||
  n == 0x200a || n == 0x2028 || n == 0x2029 || n == 0x202f || n == 0x205f ||
  n == 0x3000

def collapseWs : List Char → List Char
  | [] => []
  | [c] => if isSpace c then [' '] else [c]
  | c1 :: c2 :: cs =>
    if isSpace c1 && isSpace c2 then collapseWs (c2 :: cs)
    else (if isSpace c1 then ' ' else c1) :: collapseWs (c2 :: cs)

def stripChars (l : List Char) : List Char :=
  ((l.dropWhile isSpace).reverse.dropWhile isSpace).reverse

def sanitize_filename (s : String) : String :=
  String.mk ((stripChars (collapseWs (s.data.filter fun c => !(invalidChar c)))).take 100)

/-! ### Quality derivation (Main.py lines 26-83, `get_video_info`)

A format descriptor carries the fields read by the code: `vcodec` and
`height` (absent keys give Python `None`, modelled by `Option`), and
`format_note` (read with default `''`). The primary pass collects
`f"{height}p"` for descriptors whose `vcodec` is truthy and not `'none'` and
whose `height` is truthy and positive; the set of labels is modelled by
`List.dedup`, and Python's `sorted(..., key=lambda x: int(x.replace('p','')),
reverse=True)` by insertion sort under `qGe` (extensionally equal since all
reachable label lists have pairwise distinct keys after deduplication). -/

structure PFormat where
  vcodec : Option String
  height : Option Int
  format_note : String
deriving DecidableEq

def qualityLabel (h : Nat) : String :=
  String.mk (natChars h ++ ['p'])

/-- Models the sort key `int(x.replace('p', ''))`. -/
def qKey (s : String) : Nat :=
  parseDigits (s.data.filter fun c => !(c == 'p'))

def qGe (a b : String) : Prop := qKey b ≤ qKey a

instance : DecidableRel qGe := fun a b => Nat.decLe (qKey b) (qKey a)

instance : IsTotal String qGe := ⟨fun a b => Nat.le_total (qKey b) (qKey a)⟩

instance : IsTrans String qGe := ⟨fun _ _ _ hab hbc => Nat.le_trans hbc hab⟩

def sortQualities (l : List String) : List String :=
  List.insertionSort qGe l

def primaryLabel (f : PFormat) : Option String :=
  match f.vcodec with
  | none => none
  | some v =>
    if v = "" ∨ v = "none" then none
    else
      match f.height with
      | none => none
      | some h => if 0 < h then some (qualityLabel h.toNat) else none

def primaryQualities (formats : List PFormat) : List String :=
  sortQualities (formats.filterMap primaryLabel).dedup

/-- Fallback keyword mapping (Main.py lines 56-69): an `elif` chain of
substring tests on the lowercased `format_note`. -/
def fallbackLabel (f : PFormat) : Option String :=
  let note := f.format_note.data.map Char.toLower
  if containsSub "tiny".data note then some "144p"
  else if containsSub "small".data note then some "240p"
  else if containsSub "medium".data note then some "360p"
  else if containsSub "large".data note then some "480p"
  else if containsSub "hd720".data note then some "720p"
  else if containsSub "hd1080".data note then some "1080p"
  else none

def fallbackQualities (formats : List PFormat) : List String :=
  sortQualities (formats.filterMap fallbackLabel).dedup

/-- The quality-derivation step of `get_video_info` (lines 38-73): the primary
height-based pass, falling back to the keyword pass when it yields nothing. -/
def get_video_qualities (formats : List PFormat) : List String :=
  let vq := primaryQualities formats
  if vq = [] then fallbackQualities formats else vq

/-! ### Duration formatting (Main.py lines 175-184) -/

/-- Models Python `f"{n:02d}"`. -/
def pad2 (n : Nat) : List Char :=
  if n < 10 then '0' :: natChars n else natChars n

def format_duration : Option Nat → String
  | none => "Unknown"
  | some s =>
    if s = 0 then "Unknown"
    else
      let minutes := s / 60
      let secs := s % 60
      let hours := minutes / 60
      let mins := minutes % 60
      if hours = 0 then String.mk (pad2 mins ++ ':' :: pad2 secs)
      else String.mk (pad2 hours ++ ':' :: pad2 mins ++ ':' :: pad2 secs)

def countColon (s : String) : Nat := s.data.count ':'

/-! ### File-size formatting (Main.py lines 197-206)

`i = int(math.floor(math.log(size_bytes, 1024)))` is embedded as
`Nat.log 1024`; the double-precision computation is exact at every power of
1024 in the relevant range, so the idealization agrees with the code there.
The displayed float `round(size_bytes / p, 2)` is idealized as the exact
rational rounded to two decimals with Python's round-half-to-even; the
rendered string is abstracted into its numeric value and unit. Indexing
`size_names[i]` out of range raises `IndexError`, modelled by `none`. -/

def size_names : List String := ["B", "KB", "MB", "GB"]

def roundHalfEven (q : ℚ) : ℤ :=
  if q - Int.floor q < 1 / 2 then Int.floor q
  else if 1 / 2 < q - Int.floor q then Int.floor q + 1
  else if Int.floor q % 2 = 0 then Int.floor q else Int.floor q + 1

def round2 (q : ℚ) : ℚ := (roundHalfEven (q * 100) : ℚ) / 100

inductive SizeOutput where
  | literal (s : String)
  | sized (num : ℚ) (unit : String)
deriving DecidableEq

def format_file_size (size_bytes : Nat) : Option SizeOutput :=
  if size_bytes = 0 then some (.literal "0B")
  else
    let i := Nat.log 1024 size_bytes
    match size_names[i]? with
    | none => none
    | some unit => some (.sized (round2 ((size_bytes : ℚ) / (1024 : ℚ) ^ i)) unit)

/-! ### Download orchestration (Main.py lines 88-173)

The effectful orchestration is embedded over an explicit environment: the
outcome of `ydl.extract_info` (either an exception with its message, or the
info dict abstracted to the `title` field actually read), and the contents of
the scoped temporary directory after the call. File bytes are abstracted as
`List Nat`. The result is the returned pair together with the list of
user-visible `st.error` messages emitted. -/

structure AudioEnv where
  extract : Except String String
  mp3File : Option (List Nat)

def download_audio_to_memory (env : AudioEnv) :
    (Option (List Nat) × Option String) × List String :=
  match env.extract with
  | .error e => ((none, none), ["Error downloading audio: " ++ e])
  | .ok title =>
    match env.mp3File with
    | some fileData => ((some fileData, some (sanitize_filename title ++ ".mp3")), [])
    | none => ((none, none), ["MP3 file not found after conversion"])

/-- Format-selection expression built by `download_video_to_memory`
(lines 134-139); `quality.replace('p', '')` removes every `'p'`. -/
def format_selector (quality : String) : String :=
  if quality = "best" then "best[ext=mp4]/best"
  else
    let height := String.mk (quality.data.filter fun c => !(c == 'p'))
    "best[height<=" ++ height ++ "][ext=mp4]/best[height<=" ++ height ++ "]/best"

structure VideoEnv where
  extract : Except String String
  files : List (String × List Nat)

/-- Video download (lines 127-173): after the library call, the code lists the
temporary directory, keeps names starting with `"video"`, and reads the first
such file; the returned filename always carries the `.mp4` extension. -/
def download_video_to_memory (env : VideoEnv) (quality : String) :
    (Option (List Nat) × Option String) × List String :=
  let _fmt := format_selector quality
  match env.extract with
  | .error e => ((none, none), ["Error downloading video: " ++ e])
  | .ok title =>
    match env.files.filter (fun fc => leadsWith "video".data fc.1.data) with
    | [] => ((none, none), ["Video file not found after download"])
    | fc :: _ => ((some fc.2, some (sanitize_filename title ++ ".mp4")), [])

/-! ### URL validation in `main` (Main.py lines 216-224) -/

def valid_youtube_url (url : String) : Bool :=
  containsSub "youtube.com/watch".data url.data ||
  containsSub "youtu.be/".data url.data ||
  containsSub "youtube.com/shorts".data url.data

inductive MainStep where
  | noUrl
  | invalidUrl (msg : String)
  | fetchInfo (url : String)
deriving DecidableEq

/-- First stage of `main`: `if url:` then the validation check, reaching
`get_video_info` only for accepted URLs. -/
def main_url_step (url : String) : MainStep :=
  if url = "" then .noUrl
  else if valid_youtube_url url then .fetchInfo url
  else .invalidUrl "Please enter a valid YouTube URL"

/-! ### Properties of decimal rendering -/

lemma digitVal_digitChar : ∀ d : Nat, d < 10 → digitVal (Nat.digitChar d) = d := by decide

lemma parseDigits_concat (xs : List Char) (c : Char) :
    parseDigits (xs ++ [c]) = 10 * parseDigits xs + digitVal c := by
  simp [parseDigits, List.foldl_append]

lemma parseDigits_natCharsAux :
    ∀ fuel n : Nat, n ≤ fuel → parseDigits (natCharsAux fuel n) = n := by
  intro fuel
  induction fuel with
  | zero =>
    intro n hn
    interval_cases n
    simp [natCharsAux, parseDigits]
  | succ f ih =>
    intro n hn
    by_cases h : n < 10
    · simp [natCharsAux, h, parseDigits, digitVal_digitChar n h]
    · have h10 : 10 ≤ n := Nat.le_of_not_lt h
      have hdiv : n / 10 ≤ f := by
        have : n / 10 < n := Nat.div_lt_self (by omega) (by omega)
        omega
      rw [natCharsAux, if_neg h, parseDigits_concat, ih _ hdiv,
        digitVal_digitChar _ (Nat.mod_lt _ (by omega))]
      omega

lemma parseDigits_natChars (n : Nat) : parseDigits (natChars n) = n :=
  parseDigits_natCharsAux (n + 1) n (Nat.le_succ n)

lemma natCharsAux_digits :
    ∀ fuel n : Nat, ∀ c ∈ natCharsAux fuel n, ∃ d : Nat, d < 10 ∧ c = Nat.digitChar d := by
  intro fuel
  induction fuel with
  | zero => intro n c hc; simp [natCharsAux] at hc
  | succ f ih =>
    intro n c hc
    by_cases h : n < 10
    · simp [natCharsAux, h] at hc
      exact ⟨n, h, hc⟩
    · rw [natCharsAux, if_neg h] at hc
      rcases List.mem_append.mp hc with h1 | h2
      · exact ih _ c h1
      · simp at h2
        exact ⟨n % 10, Nat.mod_lt _ (by omega), h2⟩

lemma natChars_digit {n : Nat} {c : Char} (hc : c ∈ natChars n) :
    ∃ d : Nat, d < 10 ∧ c = Nat.digitChar d :=
  natCharsAux_digits (n + 1) n c hc

lemma digitChar_ne (d : Nat) (hd : d < 10) :
    Nat.digitChar d ≠ 'p' ∧ Nat.digitChar d ≠ ':' := by
  revert hd
  revert d
  decide

lemma natChars_ne_p {n : Nat} {c : Char} (hc : c ∈ natChars n) : ¬(c == 'p') = true := by
  obtain ⟨d, hd, rfl⟩ := natChars_digit hc
  simpa using (digitChar_ne d hd).1

lemma natChars_ne_colon {n : Nat} {c : Char} (hc : c ∈ natChars n) : c ≠ ':' := by
  obtain ⟨d, hd, rfl⟩ := natChars_digit hc
  exact (digitChar_ne d hd).2

/-! ### Properties of quality labels and sorting -/

lemma qKey_qualityLabel (h : Nat) : qKey (qualityLabel h) = h := by
  have h1 : (natChars h).filter (fun c => !(c == 'p')) = natChars h :=
    List.filter_eq_self.mpr (fun c hc => by simpa using natChars_ne_p hc)
  have h2 : (['p'] : List Char).filter (fun c => !(c == 'p')) = [] := by decide
  show parseDigits ((natChars h ++ ['p']).filter fun c => !(c == 'p')) = h
  rw [List.filter_append, h1, h2, List.append_nil, parseDigits_natChars]

lemma qualityLabel_injective : Function.Injective qualityLabel := by
  intro a b hab
  have := congrArg qKey hab
  simpa [qKey_qualityLabel] using this

lemma mem_sortQualities {l : List String} {s : String} :
    s ∈ sortQualities l ↔ s ∈ l :=
  (List.perm_insertionSort qGe l).mem_iff

lemma nodup_sortQualities {l : List String} (h : l.Nodup) : (sortQualities l).Nodup :=
  ((List.perm_insertionSort qGe l).nodup_iff).mpr h

lemma sorted_sortQualities (l : List String) : List.Pairwise qGe (sortQualities l) :=
  List.sorted_insertionSort qGe l

lemma pairwise_strict_of {l : List String} (hs : List.Pairwise qGe l) (hn : l.Nodup)
    (hinj : ∀ a ∈ l, ∀ b ∈ l, qKey a = qKey b → a = b) :
    List.Pairwise (fun a b => qKey b < qKey a) l := by
  induction l with
  | nil => exact List.Pairwise.nil
  | cons a t ih =>
    rw [List.pairwise_cons] at hs ⊢
    rw [List.nodup_cons] at hn
    refine ⟨fun b hb => ?_, ih hs.2 hn.2 (fun x hx y hy => hinj x (by simp [hx]) y (by simp [hy]))⟩
    have hle : qKey b ≤ qKey a := hs.1 b hb
    have hne : qKey b ≠ qKey a := by
      intro he
      have hab : a = b := hinj a (by simp) b (by simp [hb]) he.symm
      exact hn.1 (hab ▸ hb)
    exact lt_of_le_of_ne hle hne

lemma mem_primaryQualities {fs : List PFormat} {l : String} :
    l ∈ primaryQualities fs ↔ ∃ f ∈ fs, primaryLabel f = some l := by
  unfold primaryQualities
  rw [mem_sortQualities, List.mem_dedup, List.mem_filterMap]

lemma primaryLabel_eq_some {f : PFormat} {l : String} :
    primaryLabel f = some l ↔
      (∃ v, f.vcodec = some v ∧ v ≠ "" ∧ v ≠ "none") ∧
      ∃ h : Int, f.height = some h ∧ 0 < h ∧ l = qualityLabel h.toNat := by
  cases hv : f.vcodec with
  | none => simp [primaryLabel, hv]
  | some v =>
    by_cases hveq : v = "" ∨ v = "none"
    · simp only [primaryLabel, hv, if_pos hveq]
      constructor
      · intro h; cases h
      · rintro ⟨⟨v', hv', h1, h2⟩, -⟩
        cases hv'
        tauto
    · push_neg at hveq
      cases hh : f.height with
      | none => simp [primaryLabel, hv, hh, hveq]
      | some h =>
        by_cases h0 : 0 < h
        · simp [primaryLabel, hv, hh, h0, hveq, eq_comm]
        · simp [primaryLabel, hv, hh, h0, hveq]

lemma primaryQualities_canonical {fs : List PFormat} {l : String}
    (hl : l ∈ primaryQualities fs) : ∃ h : Nat, l = qualityLabel h := by
  obtain ⟨f, -, hf⟩ := mem_primaryQualities.mp hl
  obtain ⟨-, h, -, -, rfl⟩ := primaryLabel_eq_some.mp hf
  exact ⟨h.toNat, rfl⟩

lemma primaryQualities_nodup (fs : List PFormat) : (primaryQualities fs).Nodup :=
  nodup_sortQualities (List.nodup_dedup _)

lemma primaryQualities_pairwise (fs : List PFormat) :
    List.Pairwise (fun a b => qKey b < qKey a) (primaryQualities fs) := by
  have hmem : ∀ a ∈ sortQualities (fs.filterMap primaryLabel).dedup, ∃ h : Nat, a = qualityLabel h :=
    fun a ha => primaryQualities_canonical (show a ∈ primaryQualities fs from ha)
  show List.Pairwise (fun a b => qKey b < qKey a) (sortQualities (fs.filterMap primaryLabel).dedup)
  refine pairwise_strict_of (sorted_sortQualities _) (nodup_sortQualities (List.nodup_dedup _)) ?_
  intro a ha b hb hk
  obtain ⟨x, rfl⟩ := hmem a ha
  obtain ⟨y, rfl⟩ := hmem b hb
  rw [qKey_qualityLabel, qKey_qualityLabel] at hk
  rw [hk]

lemma fallbackLabel_mem_six {f : PFormat} {l : String} (h : fallbackLabel f = some l) :
    l ∈ (["144p", "240p", "360p", "480p", "720p", "1080p"] : List String) := by
  unfold fallbackLabel at h
  simp only at h
  split_ifs at h <;> simp only [Option.some.injEq] at h <;> subst h <;> decide

lemma mem_fallbackQualities {fs : List PFormat} {l : String} :
    l ∈ fallbackQualities fs ↔ ∃ f ∈ fs, fallbackLabel f = some l := by
  unfold fallbackQualities
  rw [mem_sortQualities, List.mem_dedup, List.mem_filterMap]

lemma fallbackQualities_nodup (fs : List PFormat) : (fallbackQualities fs).Nodup :=
  nodup_sortQualities (List.nodup_dedup _)

lemma six_key_inj :
    ∀ a ∈ (["144p", "240p", "360p", "480p", "720p", "1080p"] : List String),
      ∀ b ∈ (["144p", "240p", "360p", "480p", "720p", "1080p"] : List String),
        qKey a = qKey b → a = b := by decide

lemma fallbackQualities_pairwise (fs : List PFormat) :
    List.Pairwise (fun a b => qKey b < qKey a) (fallbackQualities fs) := by
  have hmem : ∀ a ∈ sortQualities (fs.filterMap fallbackLabel).dedup,
      a ∈ (["144p", "240p", "360p", "480p", "720p", "1080p"] : List String) := by
    intro a ha
    obtain ⟨f, -, hf⟩ := mem_fallbackQualities.mp (show a ∈ fallbackQualities fs from ha)
    exact fallbackLabel_mem_six hf
  show List.Pairwise (fun a b => qKey b < qKey a) (sortQualities (fs.filterMap fallbackLabel).dedup)
  refine pairwise_strict_of (sorted_sortQualities _) (nodup_sortQualities (List.nodup_dedup _)) ?_
  intro a ha b hb hk
  exact six_key_inj a (hmem a ha) b (hmem b hb) hk

lemma get_video_qualities_of_primary_empty {fs : List PFormat}
    (h : primaryQualities fs = []) : get_video_qualities fs = fallbackQualities fs := by
  simp [get_video_qualities, h]

lemma get_video_qualities_of_primary_ne {fs : List PFormat}
    (h : primaryQualities fs ≠ []) : get_video_qualities fs = primaryQualities fs := by
  simp [get_video_qualities, h]

/-! ### Synthetic format lists from the testable properties -/

def c2Formats : List PFormat :=
  [⟨some "avc1", some 144, ""⟩, ⟨some "avc1", some 720, ""⟩,
   ⟨some "vp9", some 720, ""⟩, ⟨some "avc1", some 1080, ""⟩,
   ⟨some "none", none, ""⟩, ⟨none, none, ""⟩]

def c3Formats : List PFormat :=
  [⟨none, none, "hd720"⟩, ⟨none, none, "tiny"⟩]

/-- C2: the primary quality-derivation pass of `get_video_info` collects the
label `"{height}p"` exactly for the descriptors with a (truthy, not `'none'`)
video codec and a strictly positive height, deduplicates the labels, and
returns them sorted strictly descending by numeric height; on a synthetic
list with video heights `[144, 720, 720, 1080]` plus audio-only entries it
yields exactly `["1080p", "720p", "144p"]`. -/
theorem primary_quality_derivation :
    (∀ fs : List PFormat, ∀ l : String,
        l ∈ primaryQualities fs ↔
          ∃ f ∈ fs, (∃ v, f.vcodec = some v ∧ v ≠ "" ∧ v ≠ "none") ∧
            ∃ h : Int, f.height = some h ∧ 0 < h ∧ l = qualityLabel h.toNat)
    ∧ (∀ fs : List PFormat, (primaryQualities fs).Nodup)
    ∧ (∀ fs : List PFormat,
        List.Pairwise (fun a b => qKey b < qKey a) (primaryQualities fs))
    ∧ get_video_qualities c2Formats = ["1080p", "720p", "144p"] := by
  refine ⟨fun fs l => ?_, primaryQualities_nodup, primaryQualities_pairwise, by decide⟩
  simp only [mem_primaryQualities, primaryLabel_eq_some]

/-- Witness for C2: the height-720 descriptor of the synthetic list puts
`"720p"` in the derived set. -/
theorem primary_quality_derivation_witness :
    "720p" ∈ primaryQualities c2Formats :=
  (primary_quality_derivation.1 c2Formats "720p").mpr
    ⟨⟨some "avc1", some 720, ""⟩, by decide, ⟨"avc1", rfl, by decide, by decide⟩,
      720, rfl, by decide, by decide⟩

/-- C3: when the primary height-based pass yields nothing, `get_video_info`
falls back to the format-note keyword mapping (tiny, small, medium, large,
hd720, hd1080 mapped to 144p-1080p), deduplicates, and sorts strictly
descending by numeric height; format notes `["hd720", "tiny"]` with no height
fields yield exactly `["720p", "144p"]`. -/
theorem fallback_quality_derivation :
    (∀ fs : List PFormat, primaryQualities fs = [] →
        (∀ l, l ∈ get_video_qualities fs ↔ ∃ f ∈ fs, fallbackLabel f = some l)
        ∧ (get_video_qualities fs).Nodup
        ∧ List.Pairwise (fun a b => qKey b < qKey a) (get_video_qualities fs)
        ∧ ∀ l ∈ get_video_qualities fs,
            l ∈ (["144p", "240p", "360p", "480p", "720p", "1080p"] : List String))
    ∧ get_video_qualities c3Formats = ["720p", "144p"] := by
  refine ⟨fun fs hempty => ?_, by decide⟩
  rw [get_video_qualities_of_primary_empty hempty]
  exact ⟨fun l => mem_fallbackQualities, fallbackQualities_nodup fs,
    fallbackQualities_pairwise fs,
    fun l hl => by
      obtain ⟨f, -, hf⟩ := mem_fallbackQualities.mp hl
      exact fallbackLabel_mem_six hf⟩

/-- Witness for C3 at the synthetic format list with notes hd720 and tiny. -/
theorem fallback_quality_derivation_witness :
    primaryQualities c3Formats = [] ∧ (get_video_qualities c3Formats).Nodup :=
  ⟨by decide, (fallback_quality_derivation.1 c3Formats (by decide)).2.1⟩

/-! ### Format selector (C4) -/

lemma filter_p_qualityLabel (h : Nat) :
    (qualityLabel h).data.filter (fun c => !(c == 'p')) = natChars h := by
  show (natChars h ++ ['p']).filter (fun c => !(c == 'p')) = natChars h
  rw [List.filter_append,
    List.filter_eq_self.mpr (fun c hc => by simpa using natChars_ne_p hc)]
  simp

lemma qualityLabel_ne_best (h : Nat) : qualityLabel h ≠ "best" := by
  intro he
  have hd : ("best" : String).data.getLast? = some 'p' := by
    rw [← he]
    exact List.getLast?_concat (natChars h)
  simp at hd

/-- C4: the format-selection expression built by `download_video_to_memory` is
`best[ext=mp4]/best` for quality `"best"`, and for a height label `"{h}p"` it
is the three-tier chain `best[height<=h][ext=mp4]/best[height<=h]/best`. -/
theorem video_format_selector :
    format_selector "best" = "best[ext=mp4]/best"
    ∧ (∀ h : Nat, format_selector (qualityLabel h) =
        "best[height<=" ++ String.mk (natChars h) ++ "][ext=mp4]/best[height<=" ++
          String.mk (natChars h) ++ "]/best")
    ∧ format_selector "720p" = "best[height<=720][ext=mp4]/best[height<=720]/best" := by
  refine ⟨by decide, fun h => ?_, by decide⟩
  unfold format_selector
  rw [if_neg (qualityLabel_ne_best h), filter_p_qualityLabel h]

/-- Witness for C4 at the height-480 quality label. -/
theorem video_format_selector_witness :
    format_selector (qualityLabel 480) =
      "best[height<=" ++ String.mk (natChars 480) ++ "][ext=mp4]/best[height<=" ++
        String.mk (natChars 480) ++ "]/best" :=
  video_format_selector.2.1 480

/-! ### Sanitizer properties (C6) -/

lemma collapseWs_mem :
    ∀ (l : List Char) (c : Char), c ∈ collapseWs l →
      (c ∈ l ∧ isSpace c = false) ∨ c = ' '
  | [], c, hc => by simp [collapseWs] at hc
  | [c0], c, hc => by
    by_cases h0 : isSpace c0 = true
    · simp [collapseWs, h0] at hc
      exact Or.inr hc
    · simp [collapseWs, h0] at hc
      subst hc
      exact Or.inl ⟨by simp, by simpa using h0⟩
  | c1 :: c2 :: cs, c, hc => by
    by_cases h12 : (isSpace c1 && isSpace c2) = true
    · rw [collapseWs, if_pos h12] at hc
      rcases collapseWs_mem (c2 :: cs) c hc with ⟨hm, hs⟩ | he
      · exact Or.inl ⟨List.mem_cons_of_mem c1 hm, hs⟩
      · exact Or.inr he
    · rw [collapseWs, if_neg h12] at hc
      rcases List.mem_cons.mp hc with he | hm
      · by_cases h1 : isSpace c1 = true
        · rw [if_pos h1] at he
          exact Or.inr he
        · rw [if_neg h1] at he
          subst he
          exact Or.inl ⟨by simp, by simpa using h1⟩
      · rcases collapseWs_mem (c2 :: cs) c hm with ⟨hm2, hs⟩ | he
        · exact Or.inl ⟨List.mem_cons_of_mem c1 hm2, hs⟩
        · exact Or.inr he

lemma collapseWs_head :
    ∀ (cs : List Char) (c : Char),
      (isSpace c = false → (collapseWs (c :: cs)).head? = some c)
      ∧ (isSpace c = true → (collapseWs (c :: cs)).head? = some ' ') := by
  intro cs
  induction cs with
  | nil =>
    intro c
    constructor
    · intro h; simp [collapseWs, h]
    · intro h; simp [collapseWs, h]
  | cons c2 cs' ih =>
    intro c
    constructor
    · intro h
      rw [collapseWs, if_neg (by simp [h]), if_neg (by simp [h])]
      rfl
    · intro h
      by_cases h2 : isSpace c2 = true
      · rw [collapseWs, if_pos (by simp [h, h2])]
        exact (ih c2).2 h2
      · rw [collapseWs, if_neg (by simp [h2]), if_pos h]
        rfl

def noWsPair (a b : Char) : Prop := isSpace a = false ∨ isSpace b = false

lemma collapseWs_chain :
    ∀ l : List Char, List.Chain' noWsPair (collapseWs l)
  | [] => by simp [collapseWs]
  | [c] => by
    by_cases h : isSpace c = true <;> simp [collapseWs, h]
  | c1 :: c2 :: cs => by
    by_cases h12 : (isSpace c1 && isSpace c2) = true
    · rw [collapseWs, if_pos h12]
      exact collapseWs_chain (c2 :: cs)
    · rw [collapseWs, if_neg h12]
      rw [List.chain'_cons']
      refine ⟨?_, collapseWs_chain (c2 :: cs)⟩
      intro b hb
      by_cases h1 : isSpace c1 = true
      · have h2 : isSpace c2 = false := by
          rcases Bool.eq_false_or_eq_true (isSpace c2) with h | h
          · exact absurd (by simp [h1, h]) h12
          · exact h
        refine Or.inr ?_
        have hh := (collapseWs_head cs c2).1 h2
        rw [hh] at hb
        simp at hb
        exact hb ▸ h2
      · refine Or.inl ?_
        rw [if_neg h1]
        simpa using h1

lemma head_dropWhile {p : Char → Bool} :
    ∀ (l : List Char) (c : Char), (l.dropWhile p).head? = some c → p c = false := by
  intro l
  induction l with
  | nil => intro c hc; simp at hc
  | cons a t ih =>
    intro c hc
    by_cases ha : p a = true
    · rw [List.dropWhile_cons_of_pos ha] at hc
      exact ih c hc
    · rw [List.dropWhile_cons_of_neg ha] at hc
      simp at hc
      subst hc
      simpa using ha

lemma getLast_dropWhile {p : Char → Bool} (l : List Char) (h : l.dropWhile p ≠ []) :
    (l.dropWhile p).getLast? = l.getLast? := by
  conv_rhs => rw [← List.takeWhile_append_dropWhile p l]
  rw [List.getLast?_append_of_ne_nil _ h]

lemma stripChars_head {l : List Char} {c : Char}
    (h : (stripChars l).head? = some c) : isSpace c = false := by
  unfold stripChars at h
  rw [List.head?_reverse] at h
  by_cases hb : (l.dropWhile isSpace).reverse.dropWhile isSpace = []
  · rw [hb] at h; simp at h
  · rw [getLast_dropWhile _ hb, List.getLast?_reverse] at h
    exact head_dropWhile _ c h

lemma stripChars_last {l : List Char} {c : Char}
    (h : (stripChars l).getLast? = some c) : isSpace c = false := by
  unfold stripChars at h
  rw [List.getLast?_reverse] at h
  exact head_dropWhile _ c h

lemma mem_stripChars {l : List Char} {c : Char} (h : c ∈ stripChars l) : c ∈ l := by
  unfold stripChars at h
  rw [List.mem_reverse] at h
  have h1 := (List.dropWhile_sublist isSpace).subset h
  rw [List.mem_reverse] at h1
  exact (List.dropWhile_sublist isSpace).subset h1

lemma chain'_reverse_noWsPair {m : List Char} (h : List.Chain' noWsPair m) :
    List.Chain' noWsPair m.reverse := by
  rw [List.chain'_reverse]
  exact List.Chain'.imp (fun a b hab => Or.symm hab) h

lemma chain'_dropWhile_noWsPair {m : List Char} (h : List.Chain' noWsPair m) :
    List.Chain' noWsPair (m.dropWhile isSpace) := by
  rw [← List.takeWhile_append_dropWhile isSpace m] at h
  exact (List.chain'_append.mp h).2.1

lemma chain'_stripChars {l : List Char} (h : List.Chain' noWsPair l) :
    List.Chain' noWsPair (stripChars l) := by
  unfold stripChars
  exact chain'_reverse_noWsPair (chain'_dropWhile_noWsPair
    (chain'_reverse_noWsPair (chain'_dropWhile_noWsPair h)))

/-- C6: `sanitize_filename` returns a string containing none of the
characters `< > : " / \ | ? *`, with no two adjacent whitespace characters
(every whitespace character left is a single space), obtained as the
truncation to 100 characters of a string whose leading and trailing
whitespace was trimmed, and of length at most 100. -/
theorem sanitize_filename_spec :
    ∀ s : String,
      (∀ c ∈ (sanitize_filename s).data, invalidChar c = false)
      ∧ List.Chain' noWsPair (sanitize_filename s).data
      ∧ (∀ c ∈ (sanitize_filename s).data, isSpace c = true → c = ' ')
      ∧ (∃ t : List Char, (sanitize_filename s).data = t.take 100
          ∧ (∀ c, t.head? = some c → isSpace c = false)
          ∧ (∀ c, t.getLast? = some c → isSpace c = false))
      ∧ (sanitize_filename s).data.length ≤ 100 := by
  intro s
  set X := s.data.filter (fun c => !(invalidChar c)) with hX
  have hdata : (sanitize_filename s).data = (stripChars (collapseWs X)).take 100 := rfl
  refine ⟨?_, ?_, ?_,
    ⟨stripChars (collapseWs X), hdata, fun c h => stripChars_head h,
      fun c h => stripChars_last h⟩, ?_⟩
  · intro c hc
    rw [hdata] at hc
    have hc1 : c ∈ collapseWs X := mem_stripChars (List.mem_of_mem_take hc)
    rcases collapseWs_mem X c hc1 with ⟨hm, -⟩ | he
    · rw [hX] at hm
      have := (List.mem_filter.mp hm).2
      simpa using this
    · rw [he]
      decide
  · rw [hdata]
    exact (chain'_stripChars (collapseWs_chain X)).take 100
  · intro c hc hws
    rw [hdata] at hc
    have hc1 : c ∈ collapseWs X := mem_stripChars (List.mem_of_mem_take hc)
    rcases collapseWs_mem X c hc1 with ⟨-, hs⟩ | he
    · simp [hws] at hs
    · exact he
  · rw [hdata, List.length_take]
    exact min_le_left _ _

/-- Witness for C6 at a name containing invalid characters and whitespace
runs. -/
theorem sanitize_filename_spec_witness :
    (∀ c ∈ (sanitize_filename "  a<b>:  c  ").data, invalidChar c = false)
    ∧ (sanitize_filename "  a<b>:  c  ").data.length ≤ 100 :=
  ⟨(sanitize_filename_spec "  a<b>:  c  ").1,
    (sanitize_filename_spec "  a<b>:  c  ").2.2.2.2⟩

/-! ### Duration formatting properties (C7) -/

lemma count_colon_pad2 (n : Nat) : (pad2 n).count ':' = 0 := by
  rw [List.count_eq_zero]
  intro hmem
  unfold pad2 at hmem
  split_ifs at hmem
  · rcases List.mem_cons.mp hmem with h | h
    · exact absurd h (by decide)
    · exact natChars_ne_colon h rfl
  · exact natChars_ne_colon hmem rfl

/-- C7: `format_duration` returns `"Unknown"` on null or zero input, an
`"MM:SS"` string with exactly one colon for durations below one hour, and an
`"HH:MM:SS"` string with exactly two colons and minute/second components
below 60 for durations of an hour or more. -/
theorem format_duration_spec :
    format_duration none = "Unknown"
    ∧ format_duration (some 0) = "Unknown"
    ∧ (∀ d : Nat, 0 < d → d < 3600 →
        countColon (format_duration (some d)) = 1
        ∧ ∃ m s2, m < 60 ∧ s2 < 60 ∧
            format_duration (some d) = String.mk (pad2 m ++ ':' :: pad2 s2))
    ∧ (∀ d : Nat, 3600 ≤ d →
        countColon (format_duration (some d)) = 2
        ∧ ∃ h m s2, m < 60 ∧ s2 < 60 ∧
            format_duration (some d) =
              String.mk (pad2 h ++ ':' :: pad2 m ++ ':' :: pad2 s2)) := by
  refine ⟨rfl, rfl, ?_, ?_⟩
  · intro d hd0 hd36
    have hne : ¬(d = 0) := Nat.pos_iff_ne_zero.mp hd0
    have hzero : d / 60 / 60 = 0 := by
      rw [Nat.div_div_eq_div_mul]
      exact Nat.div_eq_of_lt (by omega)
    have heval : format_duration (some d) =
        String.mk (pad2 (d / 60 % 60) ++ ':' :: pad2 (d % 60)) := by
      simp [format_duration, if_neg hne, hzero]
    refine ⟨?_, d / 60 % 60, d % 60, Nat.mod_lt _ (by omega), Nat.mod_lt _ (by omega), heval⟩
    rw [heval]
    show (pad2 (d / 60 % 60) ++ ':' :: pad2 (d % 60)).count ':' = 1
    simp [List.count_append, List.count_cons, count_colon_pad2]
  · intro d hd36
    have hne : ¬(d = 0) := by omega
    have hnz : ¬(d / 60 / 60 = 0) := by
      rw [Nat.div_div_eq_div_mul]
      have : 1 ≤ d / (60 * 60) := (Nat.one_le_div_iff (by omega)).mpr (by omega)
      omega
    have heval : format_duration (some d) =
        String.mk (pad2 (d / 60 / 60) ++ ':' :: pad2 (d / 60 % 60) ++ ':' :: pad2 (d % 60)) := by
      simp only [format_duration, if_neg hne, if_neg hnz]
    refine ⟨?_, d / 60 / 60, d / 60 % 60, d % 60,
      Nat.mod_lt _ (by omega), Nat.mod_lt _ (by omega), heval⟩
    rw [heval]
    show (pad2 (d / 60 / 60) ++ ':' :: pad2 (d / 60 % 60) ++ ':' :: pad2 (d % 60)).count ':' = 2
    simp [List.count_append, List.count_cons, count_colon_pad2]

/-- Witness for C7 at durations 65 and 3661 seconds. -/
theorem format_duration_spec_witness :
    countColon (format_duration (some 65)) = 1
    ∧ countColon (format_duration (some 3661)) = 2 :=
  ⟨(format_duration_spec.2.2.1 65 (by decide) (by decide)).1,
    (format_duration_spec.2.2.2 3661 (by decide)).1⟩

/-! ### File-size formatting properties (C1) -/

/-- C1 (amended): `format_file_size 0` is the literal `"0B"`, and for every
byte count `b` with `0 < b < 1024^4` the returned unit is the entry of
`[B, KB, MB, GB]` at index `i = ⌊log_1024 b⌋`, which satisfies
`1024^i ≤ b < 1024^(i+1)`, and the numeric part is `b / 1024^i` rounded to
two decimals. (For `b ≥ 1024^4` the function fails: see the counterexample.) -/
theorem format_file_size_spec :
    format_file_size 0 = some (.literal "0B")
    ∧ ∀ b : Nat, 0 < b → b < 1024 ^ 4 →
        ∃ u, size_names[Nat.log 1024 b]? = some u
          ∧ format_file_size b =
              some (.sized (round2 ((b : ℚ) / (1024 : ℚ) ^ Nat.log 1024 b)) u)
          ∧ 1024 ^ Nat.log 1024 b ≤ b ∧ b < 1024 ^ (Nat.log 1024 b + 1) := by
  refine ⟨rfl, fun b hb0 hb4 => ?_⟩
  have hbne : b ≠ 0 := Nat.pos_iff_ne_zero.mp hb0
  have hlog : Nat.log 1024 b < 4 := Nat.log_lt_of_lt_pow hbne hb4
  have hu : ∃ u, size_names[Nat.log 1024 b]? = some u := by
    have h4 : Nat.log 1024 b = 0 ∨ Nat.log 1024 b = 1 ∨
        Nat.log 1024 b = 2 ∨ Nat.log 1024 b = 3 := by omega
    rcases h4 with h | h | h | h <;> rw [h] <;> exact ⟨_, rfl⟩
  obtain ⟨u, hu⟩ := hu
  refine ⟨u, hu, ?_, Nat.pow_log_le_self 1024 hbne,
    Nat.lt_pow_succ_log_self (by norm_num) b⟩
  simp only [format_file_size, if_neg hbne, hu]

/-- C1 counterexample: at one terabyte (`b = 1024^4`) the unit list has no
entry at index `⌊log_1024 b⌋ = 4`, so the function yields no formatted string
(the code raises `IndexError`); the claim fails for this non-negative byte
count. -/
theorem format_file_size_overflow : format_file_size (1024 ^ 4) = none := by
  have hne : (1024 : Nat) ^ 4 ≠ 0 := by positivity
  have hlog : Nat.log 1024 (1024 ^ 4) = 4 := Nat.log_pow (by norm_num) 4
  unfold format_file_size
  rw [if_neg hne, hlog]
  rfl

/-- Witness for C1 (amended) at 2048 bytes. -/
theorem format_file_size_spec_witness :
    0 < 2048 ∧ 2048 < 1024 ^ 4
    ∧ ∃ u, size_names[Nat.log 1024 2048]? = some u
        ∧ format_file_size 2048 =
            some (.sized (round2 ((2048 : ℚ) / (1024 : ℚ) ^ Nat.log 1024 2048)) u)
        ∧ 1024 ^ Nat.log 1024 2048 ≤ 2048 ∧ 2048 < 1024 ^ (Nat.log 1024 2048 + 1) :=
  ⟨by norm_num, by norm_num, format_file_size_spec.2 2048 (by norm_num) (by norm_num)⟩

/-! ### Download orchestration properties (C5, C8, C10) and URL validation (C9) -/

lemma append_ne_empty (a e : String) (h : a.data ≠ []) : a ++ e ≠ "" := by
  intro hcontra
  have hd := congrArg String.data hcontra
  rw [String.data_append] at hd
  exact h (List.append_eq_nil.mp hd).1

/-- C5: a library exception or a missing output file makes both download
functions return a null pair (no bytes, no filename) together with a
non-empty user-visible error message; the returned bytes and filename are
always both present or both absent. -/
theorem download_error_null_result :
    (∀ env : AudioEnv, ∀ e, env.extract = .error e →
        download_audio_to_memory env =
          ((none, none), ["Error downloading audio: " ++ e])
        ∧ "Error downloading audio: " ++ e ≠ "")
    ∧ (∀ env : AudioEnv, ∀ t, env.extract = .ok t → env.mp3File = none →
        download_audio_to_memory env =
          ((none, none), ["MP3 file not found after conversion"])
        ∧ ("MP3 file not found after conversion" : String) ≠ "")
    ∧ (∀ env : VideoEnv, ∀ q e, env.extract = .error e →
        download_video_to_memory env q =
          ((none, none), ["Error downloading video: " ++ e])
        ∧ "Error downloading video: " ++ e ≠ "")
    ∧ (∀ env : VideoEnv, ∀ q t, env.extract = .ok t →
        env.files.filter (fun fc => leadsWith "video".data fc.1.data) = [] →
        download_video_to_memory env q =
          ((none, none), ["Video file not found after download"])
        ∧ ("Video file not found after download" : String) ≠ "")
    ∧ (∀ env : AudioEnv,
        ((download_audio_to_memory env).1.1 = none ↔
          (download_audio_to_memory env).1.2 = none))
    ∧ (∀ env : VideoEnv, ∀ q,
        ((download_video_to_memory env q).1.1 = none ↔
          (download_video_to_memory env q).1.2 = none)) := by
  refine ⟨?_, ?_, ?_, ?_, ?_, ?_⟩
  · intro env e hx
    exact ⟨by simp [download_audio_to_memory, hx],
      append_ne_empty _ e (by decide)⟩
  · intro env t hx hm
    exact ⟨by simp [download_audio_to_memory, hx, hm], by decide⟩
  · intro env q e hx
    exact ⟨by simp [download_video_to_memory, hx],
      append_ne_empty _ e (by decide)⟩
  · intro env q t hx hf
    refine ⟨?_, by decide⟩
    simp only [download_video_to_memory, hx, hf]
  · intro env
    cases hx : env.extract with
    | error e => simp [download_audio_to_memory, hx]
    | ok t =>
      cases hm : env.mp3File with
      | some d => simp [download_audio_to_memory, hx, hm]
      | none => simp [download_audio_to_memory, hx, hm]
  · intro env q
    cases hx : env.extract with
    | error e => simp [download_video_to_memory, hx]
    | ok t =>
      rcases hf : env.files.filter (fun fc => leadsWith "video".data fc.1.data) with
        - | ⟨fc, rest⟩ <;> simp [download_video_to_memory, hx, hf]

/-- Witness for C5: a failing library call in audio mode. -/
theorem download_error_null_result_witness :
    download_audio_to_memory ⟨.error "network down", none⟩ =
      ((none, none), ["Error downloading audio: " ++ "network down"])
    ∧ "Error downloading audio: " ++ "network down" ≠ "" :=
  download_error_null_result.1 ⟨.error "network down", none⟩ "network down" rfl

/-- C8: on success (library returned an info record with a title and the
expected output file exists) each download function returns exactly the
produced file's bytes paired with `sanitize_filename title` plus the
mode-appropriate extension. -/
theorem download_success_result :
    (∀ env : AudioEnv, ∀ t d, env.extract = .ok t → env.mp3File = some d →
        download_audio_to_memory env =
          ((some d, some (sanitize_filename t ++ ".mp3")), []))
    ∧ (∀ env : VideoEnv, ∀ q t n d rest, env.extract = .ok t →
        env.files.filter (fun fc => leadsWith "video".data fc.1.data) = (n, d) :: rest →
        download_video_to_memory env q =
          ((some d, some (sanitize_filename t ++ ".mp4")), [])) := by
  constructor
  · intro env t d hx hm
    simp [download_audio_to_memory, hx, hm]
  · intro env q t n d rest hx hf
    simp only [download_video_to_memory, hx, hf]

/-- Witness for C8: a successful audio download. -/
theorem download_success_result_witness :
    download_audio_to_memory ⟨.ok "My song", some [7, 8]⟩ =
      ((some [7, 8], some (sanitize_filename "My song" ++ ".mp3")), []) :=
  download_success_result.1 ⟨.ok "My song", some [7, 8]⟩ "My song" [7, 8] rfl rfl

/-- C10: the video path reads the first directory entry whose name starts
with `"video"` and always reports a `.mp4` filename, whatever the actual
extension of the file read: two transient directories holding the same two
files in different listing orders yield different bytes, and the bytes read
from `video.webm` are still labelled `clip.mp4`. -/
theorem video_file_selection :
    (∀ env : VideoEnv, ∀ q t n d rest, env.extract = .ok t →
        env.files.filter (fun fc => leadsWith "video".data fc.1.data) = (n, d) :: rest →
        (download_video_to_memory env q).1.1 = some d
        ∧ ∃ base, (download_video_to_memory env q).1.2 = some (base ++ ".mp4"))
    ∧ (download_video_to_memory
        ⟨.ok "clip", [("video.webm", [1]), ("video.mp4", [2])]⟩ "best").1.1 = some [1]
    ∧ (download_video_to_memory
        ⟨.ok "clip", [("video.mp4", [2]), ("video.webm", [1])]⟩ "best").1.1 = some [2]
    ∧ (download_video_to_memory
        ⟨.ok "clip", [("video.webm", [1]), ("video.mp4", [2])]⟩ "best").1.2 =
        some "clip.mp4" := by
  refine ⟨?_, by decide, by decide, by decide⟩
  intro env q t n d rest hx hf
  constructor
  · simp only [download_video_to_memory, hx, hf]
  · exact ⟨sanitize_filename t, by simp only [download_video_to_memory, hx, hf]⟩

/-- Witness for C10: a directory whose only video-named file is a webm. -/
theorem video_file_selection_witness :
    (download_video_to_memory ⟨.ok "clip", [("video.webm", [9])]⟩ "best").1.1 = some [9]
    ∧ ∃ base, (download_video_to_memory ⟨.ok "clip", [("video.webm", [9])]⟩ "best").1.2 =
        some (base ++ ".mp4") :=
  video_file_selection.1 ⟨.ok "clip", [("video.webm", [9])]⟩ "best" "clip"
    "video.webm" [9] [] rfl (by decide)

/-- C9: any non-empty URL containing none of the three accepted substrings is
rejected by `main` with a visible error, and the extraction step
(`get_video_info`) is unreachable for it. -/
theorem invalid_url_rejected :
    ∀ url : String, url ≠ "" →
      containsSub "youtube.com/watch".data url.data = false →
      containsSub "youtu.be/".data url.data = false →
      containsSub "youtube.com/shorts".data url.data = false →
      main_url_step url = .invalidUrl "Please enter a valid YouTube URL"
      ∧ (∀ u, main_url_step url ≠ .fetchInfo u)
      ∧ ("Please enter a valid YouTube URL" : String) ≠ "" := by
  intro url hne h1 h2 h3
  have hv : valid_youtube_url url = false := by
    simp [valid_youtube_url, h1, h2, h3]
  refine ⟨by simp [main_url_step, hne, hv], ?_, by decide⟩
  intro u
  simp [main_url_step, hne, hv]

/-- Witness for C9 at a non-YouTube URL. -/
theorem invalid_url_rejected_witness :
    main_url_step "https://vimeo.com/123" = .invalidUrl "Please enter a valid YouTube URL"
    ∧ (∀ u, main_url_step "https://vimeo.com/123" ≠ .fetchInfo u)
    ∧ ("Please enter a valid YouTube URL" : String) ≠ "" :=
  invalid_url_rejected "https://vimeo.com/123" (by decide) (by decide) (by decide) (by decide)
